import Mathlib

/-!
Verification development for the `brod` repository: a client library for a
partitioned log messaging platform (Kafka over ZooKeeper).  The repository
fragment under `src/` holds the test harness (`brod/test/test_zk.py`); the
core components (`PartitionAssigner`, `FetchRouter`, offset records) are
specified in `spec.md` and modelled here from the spec.  The harness
structures (`ServerTopology`, `RunConfig`, `teardown`) are embedded directly
from `src/brod/test/test_zk.py`.
-/

namespace Brod

/-! Data model (spec §3) -/

/-- BrokerPartition: the record `(brokerId, host, port, partitionIndex)`; identity and
ordering are by `(brokerId, partitionIndex)` (spec §3). -/
structure BrokerPartition where
  brokerId : Nat
  host : String
  port : Nat
  partitionIndex : Nat
deriving DecidableEq, Repr

/-- Total ordering of `BrokerPartition` by `(brokerId, partitionIndex)`
(spec §3: this ordering is load-bearing for deterministic assignment). -/
def bpLE (a b : BrokerPartition) : Prop :=
  a.brokerId < b.brokerId ∨ (a.brokerId = b.brokerId ∧ a.partitionIndex ≤ b.partitionIndex)

instance : DecidableRel bpLE := fun a b => by unfold bpLE; infer_instance

instance : IsTotal BrokerPartition bpLE := ⟨fun a b => by unfold bpLE; omega⟩

instance : IsTrans BrokerPartition bpLE :=
  ⟨fun a b c h₁ h₂ => by unfold bpLE at *; omega⟩

/-- The identity key of a `BrokerPartition` (spec §3: identity =
`(brokerId, partitionIndex)`). -/
def bpKey (a : BrokerPartition) : Nat × Nat := (a.brokerId, a.partitionIndex)

/-! PartitionAssigner (spec §4.2)

Modelled from the spec: the `PartitionAssigner` core is not part of the
repository fragment under `src/` (only the harness tests exercising it are).
`assign` follows §4.2 word for word: sort `consumerIds` lexically, sort
`partitions` by `(brokerId, partitionIndex)`; with `n` consumers and `p`
partitions, base share `p / n` and remainder `p % n`, the first `remainder`
consumers receive `base + 1` partitions and the rest `base`, as contiguous
ranges in sorted partition order. -/

/-- Modelled from the spec: `PartitionAssigner.assign` (§4.2), missing from
`src/`.  Returns the mapping as an association list in sorted consumer
order; consumer `i` receives the contiguous slice starting at
`i * base + min i rem` of length `base + 1` (if `i < rem`) or `base`. -/
def assign (consumerIds : List String) (partitions : List BrokerPartition) :
    List (String × List BrokerPartition) :=
  let cs := List.insertionSort (fun a b : String => a ≤ b) consumerIds
  let ps := List.insertionSort bpLE partitions
  let n := cs.length
  let p := ps.length
  (List.range n).map fun i =>
    (cs.getD i "",
     (ps.drop (i * (p / n) + min i (p % n))).take
       (if i < p % n then p / n + 1 else p / n))

/-! Test-harness data model (`src/brod/test/test_zk.py`) -/

/-- ServerTopology from `test_zk.py`: a named tuple
`(name, num_brokers, partitions_per_broker)`. -/
structure ServerTopology where
  name : String
  num_brokers : Nat
  partitions_per_broker : Nat
deriving DecidableEq, Repr

/-- The `total_partitions` property of `ServerTopology` from `test_zk.py`:
`num_brokers * partitions_per_broker`. -/
def ServerTopology.total_partitions (t : ServerTopology) : Nat :=
  t.num_brokers * t.partitions_per_broker

/-- The `ZKConfig` named tuple from `test_zk.py`. -/
structure ZKConfig where
  config_file : String
  data_dir : String
  client_port : Nat
deriving DecidableEq, Repr

/-- The `KafkaConfig` named tuple from `test_zk.py`. -/
structure KafkaConfig where
  config_file : String
  broker_id : Nat
  port : Nat
  log_dir : String
  num_partitions : Nat
  zk_server : String
  jmx_port : Nat
deriving DecidableEq, Repr

/-- A spawned subprocess, identified by its pid (`subprocess.Popen` in
`test_zk.py`). -/
structure Process where
  pid : Nat
deriving DecidableEq, Repr

/-- The five class-level fields of `RunConfig` in `test_zk.py`; each is
`None` (`none`) or a value. -/
structure RunConfig where
  kafka_configs : Option (List KafkaConfig)
  kafka_processes : Option (List Process)
  run_dir : Option String
  zk_config : Option ZKConfig
  zk_process : Option Process
deriving DecidableEq, Repr

/-- Python truthiness of an optional list: `None` and `[]` are falsy. -/
def truthyOptList : Option (List α) → Bool
  | none => false
  | some l => !l.isEmpty

/-- Python truthiness of an optional string: `None` and `""` are falsy. -/
def truthyOptStr : Option String → Bool
  | none => false
  | some s => !s.isEmpty

/-- Model of `RunConfig.clear()` from `test_zk.py`: it sets all five class fields to
`None`; we model the resulting state. -/
def RunConfig.clear : RunConfig := ⟨none, none, none, none, none⟩

/-- Model of `RunConfig.is_running()` from `test_zk.py`:
`any([kafka_configs, kafka_processes, run_dir, zk_config, zk_process])`
under Python truthiness. -/
def RunConfig.is_running (c : RunConfig) : Bool :=
  truthyOptList c.kafka_configs || truthyOptList c.kafka_processes ||
    truthyOptStr c.run_dir || c.zk_config.isSome || c.zk_process.isSome

/-- Model of `teardown()` from `test_zk.py`.  If `RunConfig.is_running()` is false it
returns immediately; otherwise it kills every Kafka process group, then the
ZooKeeper process group, and calls `RunConfig.clear()`.  The result is the
new `RunConfig` state paired with the list of pids killed, or `none` when
the Python code would raise (iterating `None` or taking `.pid` of `None`). -/
def teardown (c : RunConfig) : Option (RunConfig × List Nat) :=
  if c.is_running then
    match c.kafka_processes, c.zk_process with
    | some ks, some zp => some (RunConfig.clear, ks.map Process.pid ++ [zp.pid])
    | _, _ => none
  else
    some (c, [])

/-- The shape `setup_servers(topology)` leaves `RunConfig` in: all five
class fields assigned (`run_dir`, `zk_config`, `zk_process`,
`kafka_configs`, `kafka_processes` are all set in `run_setup`). -/
def SetupLike (c : RunConfig) : Prop :=
  (∃ cfgs, c.kafka_configs = some cfgs) ∧ (∃ prs, c.kafka_processes = some prs) ∧
    (∃ d, c.run_dir = some d) ∧ (∃ z, c.zk_config = some z) ∧
    (∃ p, c.zk_process = some p)

/-- States the harness can put the `RunConfig` class into: the initial
all-`None` state, a post-`setup_servers` state, or a post-`teardown`
state. -/
inductive Reachable : RunConfig → Prop
  | init : Reachable RunConfig.clear
  | setup {c c' : RunConfig} : Reachable c → SetupLike c' → Reachable c'
  | teardownStep {c c' : RunConfig} {ks : List Nat} :
      Reachable c → teardown c = some (c', ks) → Reachable c'

theorem reachable_cases {c : RunConfig} (h : Reachable c) :
    c = RunConfig.clear ∨ SetupLike c := by
  induction h with
  | init => exact Or.inl rfl
  | setup _ hs _ => exact Or.inr hs
  | teardownStep _ ht ih =>
    rename_i c₀ c₁ ks
    rcases ih with h0 | hs
    · subst h0
      left
      simpa [teardown, RunConfig.is_running, RunConfig.clear, truthyOptList,
        truthyOptStr] using congrArg (Option.map Prod.fst) ht.symm
    · obtain ⟨⟨cfgs, h1⟩, ⟨prs, h2⟩, ⟨d, h3⟩, ⟨z, h4⟩, ⟨p, h5⟩⟩ := hs
      left
      rw [teardown] at ht
      rw [if_pos] at ht
      · rw [h2, h5] at ht
        simp only [Option.some.injEq, Prod.mk.injEq] at ht
        exact ht.1.symm
      · simp [RunConfig.is_running, h4]

/-- C9: for every `ServerTopology` value, the `total_partitions` property
equals `num_brokers * partitions_per_broker`. -/
theorem total_partitions_eq (t : ServerTopology) :
    t.total_partitions = t.num_brokers * t.partitions_per_broker := rfl

/-- C10: `teardown()` is idempotent.  After one `teardown()` completes on a
harness-reachable `RunConfig` state, all five class fields are `None`,
`is_running()` returns `false`, and a further `teardown()` returns
immediately, killing nothing and changing no state. -/
theorem teardown_idempotent (c c₁ : RunConfig) (ks : List Nat)
    (hreach : Reachable c) (h : teardown c = some (c₁, ks)) :
    c₁.kafka_configs = none ∧ c₁.kafka_processes = none ∧ c₁.run_dir = none ∧
      c₁.zk_config = none ∧ c₁.zk_process = none ∧
      c₁.is_running = false ∧ teardown c₁ = some (c₁, []) := by
  have hclear : c₁ = RunConfig.clear := by
    rcases reachable_cases hreach with h0 | hs
    · subst h0
      simpa [teardown, RunConfig.is_running, RunConfig.clear, truthyOptList,
        truthyOptStr] using congrArg (Option.map Prod.fst) h.symm
    · obtain ⟨⟨cfgs, h1⟩, ⟨prs, h2⟩, ⟨d, h3⟩, ⟨z, h4⟩, ⟨p, h5⟩⟩ := hs
      rw [teardown] at h
      rw [if_pos] at h
      · rw [h2, h5] at h
        simp only [Option.some.injEq, Prod.mk.injEq] at h
        exact h.1.symm
      · simp [RunConfig.is_running, h4]
  subst hclear
  refine ⟨rfl, rfl, rfl, rfl, rfl, rfl, rfl⟩

/-- C10 witness: a concrete post-setup state (one Kafka broker process with
pid 42, a ZooKeeper process with pid 7) is reachable, and `teardown` on it
satisfies the idempotence theorem's conclusion. -/
theorem teardown_idempotent_witness :
    RunConfig.clear.kafka_configs = none ∧ RunConfig.clear.kafka_processes = none ∧
      RunConfig.clear.run_dir = none ∧ RunConfig.clear.zk_config = none ∧
      RunConfig.clear.zk_process = none ∧ RunConfig.clear.is_running = false ∧
      teardown RunConfig.clear = some (RunConfig.clear, []) :=
  teardown_idempotent
    ⟨some [⟨"/tmp/k.properties", 0, 9101, "/tmp/k", 5, "localhost:2182", 10000⟩],
     some [⟨42⟩], some "/tmp/brod_zk_test", some ⟨"/tmp/zk.properties", "/tmp/zk", 2182⟩,
     some ⟨7⟩⟩
    RunConfig.clear [42, 7]
    (Reachable.setup Reachable.init
      ⟨⟨_, rfl⟩, ⟨_, rfl⟩, ⟨_, rfl⟩, ⟨_, rfl⟩, ⟨_, rfl⟩⟩)
    rfl

/-! Lemmas about the PartitionAssigner -/

/-- Flattening the contiguous slices of lengths `base+1` (first `rem`) and
`base` (rest) over `n` consumers reassembles the partition list. -/
theorem range_slices_flatten {α : Type} (ps : List α) (n : Nat) (hn : 0 < n) :
    ((List.range n).map fun i =>
      (ps.drop (i * (ps.length / n) + min i (ps.length % n))).take
        (if i < ps.length % n then ps.length / n + 1 else ps.length / n)).flatten = ps := by
  have hdm : n * (ps.length / n) + ps.length % n = ps.length := Nat.div_add_mod ..
  have hremlt : ps.length % n < n := Nat.mod_lt _ hn
  have key : ∀ m : Nat,
      ((List.range m).map fun i =>
        (ps.drop (i * (ps.length / n) + min i (ps.length % n))).take
          (if i < ps.length % n then ps.length / n + 1 else ps.length / n)).flatten
      = ps.take (m * (ps.length / n) + min m (ps.length % n)) := by
    intro m
    induction m with
    | zero => simp
    | succ m ih =>
      rw [List.range_succ, List.map_append, List.flatten_append, ih]
      simp only [List.map_cons, List.map_nil, List.flatten_cons, List.flatten_nil,
        List.append_nil]
      have hmul : (m + 1) * (ps.length / n) = m * (ps.length / n) + ps.length / n := by
        ring
      have hstep : (m + 1) * (ps.length / n) + min (m + 1) (ps.length % n)
          = (m * (ps.length / n) + min m (ps.length % n)) +
            (if m < ps.length % n then ps.length / n + 1 else ps.length / n) := by
        split <;> omega
      rw [hstep]
      exact (List.take_add ..).symm
  rw [key n]
  have hfin : n * (ps.length / n) + min n (ps.length % n) = ps.length := by omega
  rw [hfin, List.take_length]

/-- Each slice handed to consumer `i < n` has exactly its nominal length
(`base+1` for `i < rem`, else `base`). -/
theorem range_slices_length {α : Type} (ps : List α) (n : Nat) (hn : 0 < n)
    (i : Nat) (hi : i < n) :
    ((ps.drop (i * (ps.length / n) + min i (ps.length % n))).take
      (if i < ps.length % n then ps.length / n + 1 else ps.length / n)).length
      = if i < ps.length % n then ps.length / n + 1 else ps.length / n := by
  have hdm : n * (ps.length / n) + ps.length % n = ps.length := Nat.div_add_mod ..
  have hremlt : ps.length % n < n := Nat.mod_lt _ hn
  have hmul1 : (i + 1) * (ps.length / n) = i * (ps.length / n) + ps.length / n := by ring
  have hmul2 : (i + 1) * (ps.length / n) ≤ n * (ps.length / n) :=
    Nat.mul_le_mul_right _ hi
  rw [List.length_take, List.length_drop]
  by_cases h : i < ps.length % n
  · simp only [if_pos h]; omega
  · simp only [if_neg h]; omega

/-- Unfolding `assign` to a map over consumer indices. -/
theorem assign_eq_map (cs : List String) (ps : List BrokerPartition) :
    assign cs ps = (List.range cs.length).map fun i =>
      ((List.insertionSort (fun a b : String => a ≤ b) cs).getD i "",
       ((List.insertionSort bpLE ps).drop
         (i * (ps.length / cs.length) + min i (ps.length % cs.length))).take
         (if i < ps.length % cs.length then ps.length / cs.length + 1
          else ps.length / cs.length)) := by
  simp only [assign, List.length_insertionSort]

/-- C2: on a non-empty sorted consumer list and a sorted partition list,
`assign` reassembles the partition list from the consumers' contiguous
consecutive ranges (consumer 0 first), has one entry per consumer, and gives
consumer `i` the slice starting at `i * (p / n) + min i (p % n)` whose
length is `p / n + 1` for the first `p % n` consumers and `p / n` for the
rest. -/
theorem assign_ranges_spec (cs : List String) (ps : List BrokerPartition)
    (hcs : List.Sorted (fun a b : String => a ≤ b) cs)
    (hps : List.Sorted bpLE ps) (hne : cs ≠ []) :
    ((assign cs ps).map Prod.snd).flatten = ps ∧
    (assign cs ps).length = cs.length ∧
    ∀ i, i < cs.length →
      (assign cs ps).getD i ("", []) =
        (cs.getD i "",
         (ps.drop (i * (ps.length / cs.length) + min i (ps.length % cs.length))).take
           (if i < ps.length % cs.length then ps.length / cs.length + 1
            else ps.length / cs.length)) ∧
      ((assign cs ps).getD i ("", [])).2.length =
        (if i < ps.length % cs.length then ps.length / cs.length + 1
         else ps.length / cs.length) := by
  have hn : 0 < cs.length := List.length_pos.2 hne
  have hmap : assign cs ps = (List.range cs.length).map fun i =>
      (cs.getD i "",
       (ps.drop (i * (ps.length / cs.length) + min i (ps.length % cs.length))).take
         (if i < ps.length % cs.length then ps.length / cs.length + 1
          else ps.length / cs.length)) := by
    rw [assign_eq_map, hcs.insertionSort_eq, hps.insertionSort_eq]
  refine ⟨?_, ?_, ?_⟩
  · rw [hmap, List.map_map]
    exact range_slices_flatten ps cs.length hn
  · rw [hmap]; simp
  · intro i hi
    have hget : (assign cs ps).getD i ("", []) =
        (cs.getD i "",
         (ps.drop (i * (ps.length / cs.length) + min i (ps.length % cs.length))).take
           (if i < ps.length % cs.length then ps.length / cs.length + 1
            else ps.length / cs.length)) := by
      rw [hmap]
      simp [List.getD, hi]
    refine ⟨hget, ?_⟩
    rw [hget]
    exact range_slices_length ps cs.length hn i hi

/-- C2 witness: a single sorted consumer with a single partition satisfies
the hypotheses, and the assigned ranges flatten back to the partition
list. -/
theorem assign_ranges_spec_witness :
    List.Sorted (fun a b : String => a ≤ b) ["c1"] ∧
    List.Sorted bpLE [⟨0, "h", 9101, 0⟩] ∧ (["c1"] : List String) ≠ [] ∧
    ((assign ["c1"] [⟨0, "h", 9101, 0⟩]).map Prod.snd).flatten =
      [⟨0, "h", 9101, 0⟩] :=
  ⟨by simp, by simp, by simp,
   (assign_ranges_spec ["c1"] [⟨0, "h", 9101, 0⟩] (by simp) (by simp) (by simp)).1⟩

/-- C1: at a converged moment every member owns its `assign` slice (spec
§4.2/§4.3: every member computes the same assignment from the same inputs),
so the union of all consumers' owned partitions is a permutation of the full
partition list, the per-consumer sets are pairwise disjoint (every partition
lands in exactly one consumer's set), and any two consumers' set sizes
differ by at most 1. -/
theorem assign_coverage_disjoint_balanced (cs : List String)
    (ps : List BrokerPartition) (hne : cs ≠ []) (hnd : ps.Nodup) :
    ((assign cs ps).map Prod.snd).flatten.Perm ps ∧
    ((assign cs ps).map Prod.snd).Pairwise List.Disjoint ∧
    ∀ l₁ ∈ (assign cs ps).map Prod.snd, ∀ l₂ ∈ (assign cs ps).map Prod.snd,
      l₁.length ≤ l₂.length + 1 := by
  have hn : 0 < cs.length := List.length_pos.2 hne
  have hlen : ps.length = (List.insertionSort bpLE ps).length :=
    (List.length_insertionSort _ _).symm
  have hflat : ((assign cs ps).map Prod.snd).flatten = List.insertionSort bpLE ps := by
    rw [assign_eq_map, List.map_map, hlen]
    exact range_slices_flatten (List.insertionSort bpLE ps) cs.length hn
  refine ⟨?_, ?_, ?_⟩
  · rw [hflat]
    exact List.perm_insertionSort _ _
  · have hnodup : ((assign cs ps).map Prod.snd).flatten.Nodup := by
      rw [hflat]
      exact (List.perm_insertionSort bpLE ps).symm.nodup hnd
    exact (List.nodup_flatten.mp hnodup).2
  · intro l₁ h₁ l₂ h₂
    rw [assign_eq_map, List.map_map] at h₁ h₂
    simp only [List.mem_map, List.mem_range, Function.comp] at h₁ h₂
    obtain ⟨i, hi, hl₁⟩ := h₁
    obtain ⟨j, hj, hl₂⟩ := h₂
    have e₁ : l₁.length =
        if i < ps.length % cs.length then ps.length / cs.length + 1
        else ps.length / cs.length := by
      rw [← hl₁]
      show (((List.insertionSort bpLE ps).drop _).take _).length = _
      rw [hlen]
      exact range_slices_length (List.insertionSort bpLE ps) cs.length hn i hi
    have e₂ : l₂.length =
        if j < ps.length % cs.length then ps.length / cs.length + 1
        else ps.length / cs.length := by
      rw [← hl₂]
      show (((List.insertionSort bpLE ps).drop _).take _).length = _
      rw [hlen]
      exact range_slices_length (List.insertionSort bpLE ps) cs.length hn j hj
    rw [e₁, e₂]
    split <;> split <;> omega

/-- C1 witness: two consumers over three distinct partitions satisfy the
hypotheses; the flattened owned sets are a permutation of the partition
list. -/
theorem assign_coverage_witness :
    (["a", "b"] : List String) ≠ [] ∧
    ([⟨0, "h", 9101, 0⟩, ⟨0, "h", 9101, 1⟩, ⟨1, "h", 9102, 0⟩] :
      List BrokerPartition).Nodup ∧
    ((assign ["a", "b"]
        [⟨0, "h", 9101, 0⟩, ⟨0, "h", 9101, 1⟩, ⟨1, "h", 9102, 0⟩]).map
      Prod.snd).flatten.Perm
      [⟨0, "h", 9101, 0⟩, ⟨0, "h", 9101, 1⟩, ⟨1, "h", 9102, 0⟩] :=
  ⟨by simp, by decide,
   (assign_coverage_disjoint_balanced ["a", "b"]
     [⟨0, "h", 9101, 0⟩, ⟨0, "h", 9101, 1⟩, ⟨1, "h", 9102, 0⟩]
     (by simp) (by decide)).1⟩

/-- C6: `assign` edge cases (spec §4.2 step 4): no consumers gives an empty
mapping; no partitions maps every consumer to an empty sequence; with more
consumers than partitions, every consumer of sorted index at least `p`
receives an empty sequence. -/
theorem assign_edge_cases :
    (∀ ps : List BrokerPartition, assign [] ps = []) ∧
    (∀ cs : List String, ∀ e ∈ assign cs ([] : List BrokerPartition), e.2 = []) ∧
    (∀ (cs : List String) (ps : List BrokerPartition), ps.length < cs.length →
      ∀ i, ps.length ≤ i → i < cs.length →
        ((assign cs ps).getD i ("", [])).2 = []) := by
  refine ⟨fun ps => rfl, ?_, ?_⟩
  · intro cs e he
    rw [assign_eq_map] at he
    simp only [List.mem_map, List.mem_range] at he
    obtain ⟨i, hi, he⟩ := he
    rw [← he]
    simp
  · intro cs ps hlt i hpi hin
    have hbase : ps.length / cs.length = 0 := Nat.div_eq_of_lt hlt
    have hrem : ps.length % cs.length = ps.length := Nat.mod_eq_of_lt hlt
    rw [assign_eq_map]
    have hget : ((List.range cs.length).map fun k =>
        ((List.insertionSort (fun a b : String => a ≤ b) cs).getD k "",
         ((List.insertionSort bpLE ps).drop
           (k * (ps.length / cs.length) + min k (ps.length % cs.length))).take
           (if k < ps.length % cs.length then ps.length / cs.length + 1
            else ps.length / cs.length))).getD i ("", []) =
        ((List.insertionSort (fun a b : String => a ≤ b) cs).getD i "",
         ((List.insertionSort bpLE ps).drop
           (i * (ps.length / cs.length) + min i (ps.length % cs.length))).take
           (if i < ps.length % cs.length then ps.length / cs.length + 1
            else ps.length / cs.length)) := by
      simp [List.getD, hin]
    rw [hget]
    show (((List.insertionSort bpLE ps).drop _).take _) = []
    rw [hrem, hbase, if_neg (by omega), List.take_zero]

/-- C6 witness: three consumers, one partition; the consumer of sorted
index 2 receives the empty sequence. -/
theorem assign_edge_cases_witness :
    (([⟨0, "h", 9101, 0⟩] : List BrokerPartition).length <
      (["a", "b", "c"] : List String).length) ∧
    ((assign ["a", "b", "c"] [⟨0, "h", 9101, 0⟩]).getD 2 ("", [])).2 = [] :=
  ⟨by decide,
   assign_edge_cases.2.2 ["a", "b", "c"] [⟨0, "h", 9101, 0⟩] (by decide) 2
     (by decide) (by decide)⟩

/-- Strict ordering of `BrokerPartition` by `(brokerId, partitionIndex)`. -/
def bpKeyLT (a b : BrokerPartition) : Prop :=
  a.brokerId < b.brokerId ∨ (a.brokerId = b.brokerId ∧ a.partitionIndex < b.partitionIndex)

theorem bpKeyLT_of_le_ne {a b : BrokerPartition} (hle : bpLE a b)
    (hne : bpKey a ≠ bpKey b) : bpKeyLT a b := by
  unfold bpLE at hle
  unfold bpKeyLT
  have hcomp : ¬(a.brokerId = b.brokerId ∧ a.partitionIndex = b.partitionIndex) := by
    rintro ⟨h₁, h₂⟩
    exact hne (by unfold bpKey; rw [h₁, h₂])
  omega

/-- Sorting by `bpLE` is determined by the multiset of elements when no two
partitions share an identity key. -/
theorem insertionSort_eq_of_perm_keys (ps ps' : List BrokerPartition)
    (hp : ps.Perm ps') (hkey : ps.Pairwise fun a b => bpKey a ≠ bpKey b) :
    List.insertionSort bpLE ps = List.insertionSort bpLE ps' := by
  have hperm : (List.insertionSort bpLE ps).Perm (List.insertionSort bpLE ps') :=
    (List.perm_insertionSort bpLE ps).trans
      (hp.trans (List.perm_insertionSort bpLE ps').symm)
  have hkey' : ps'.Pairwise fun a b => bpKey a ≠ bpKey b :=
    (hp.pairwise_iff fun hab => Ne.symm hab).mp hkey
  have hkey₁ : (List.insertionSort bpLE ps).Pairwise fun a b => bpKey a ≠ bpKey b :=
    ((List.perm_insertionSort bpLE ps).pairwise_iff fun hab => Ne.symm hab).mpr hkey
  have hkey₂ : (List.insertionSort bpLE ps').Pairwise fun a b => bpKey a ≠ bpKey b :=
    ((List.perm_insertionSort bpLE ps').pairwise_iff fun hab => Ne.symm hab).mpr hkey'
  have hs₁ : (List.insertionSort bpLE ps).Pairwise bpKeyLT :=
    (List.Pairwise.and (List.sorted_insertionSort bpLE ps) hkey₁).imp
      fun h => bpKeyLT_of_le_ne h.1 h.2
  have hs₂ : (List.insertionSort bpLE ps').Pairwise bpKeyLT :=
    (List.Pairwise.and (List.sorted_insertionSort bpLE ps') hkey₂).imp
      fun h => bpKeyLT_of_le_ne h.1 h.2
  haveI : IsAntisymm BrokerPartition bpKeyLT :=
    ⟨fun a b h₁ h₂ => by exfalso; unfold bpKeyLT at h₁ h₂; omega⟩
  exact List.eq_of_perm_of_sorted hperm hs₁ hs₂

/-- C7: `assign` is deterministic: identical inputs give identical outputs,
and inputs that are permutations of each other (same sorted content, with
partition identity keys distinct as in an ordered set of
`BrokerPartition`) give the same mapping. -/
theorem assign_deterministic (cs cs' : List String) (ps ps' : List BrokerPartition)
    (hc : cs.Perm cs') (hp : ps.Perm ps')
    (hkey : ps.Pairwise fun a b => bpKey a ≠ bpKey b) :
    assign cs ps = assign cs ps ∧ assign cs ps = assign cs' ps' := by
  refine ⟨rfl, ?_⟩
  have h₁ : List.insertionSort (fun a b : String => a ≤ b) cs
      = List.insertionSort (fun a b : String => a ≤ b) cs' :=
    List.eq_of_perm_of_sorted
      ((List.perm_insertionSort _ cs).trans
        (hc.trans (List.perm_insertionSort _ cs').symm))
      (List.sorted_insertionSort _ cs) (List.sorted_insertionSort _ cs')
  have h₂ := insertionSort_eq_of_perm_keys ps ps' hp hkey
  rw [assign_eq_map, assign_eq_map, h₁, h₂, hc.length_eq, hp.length_eq]

/-- C7 witness: two consumer lists and two partition lists that are
permutations of each other with distinct keys produce the same mapping. -/
theorem assign_deterministic_witness :
    (["b", "a"] : List String).Perm ["a", "b"] ∧
    ([⟨1, "h2", 9102, 0⟩, ⟨0, "h1", 9101, 0⟩] : List BrokerPartition).Perm
      [⟨0, "h1", 9101, 0⟩, ⟨1, "h2", 9102, 0⟩] ∧
    ([⟨1, "h2", 9102, 0⟩, ⟨0, "h1", 9101, 0⟩] :
      List BrokerPartition).Pairwise (fun a b => bpKey a ≠ bpKey b) ∧
    assign ["b", "a"] [⟨1, "h2", 9102, 0⟩, ⟨0, "h1", 9101, 0⟩] =
      assign ["a", "b"] [⟨0, "h1", 9101, 0⟩, ⟨1, "h2", 9102, 0⟩] :=
  ⟨by decide, by decide, by decide,
   (assign_deterministic ["b", "a"] ["a", "b"]
     [⟨1, "h2", 9102, 0⟩, ⟨0, "h1", 9101, 0⟩]
     [⟨0, "h1", 9101, 0⟩, ⟨1, "h2", 9102, 0⟩]
     (by decide) (by decide) (by decide)).2⟩

/-! FetchRouter and OffsetRecord (spec §3, §4.4)

Modelled from the spec: `FetchRouter` and the `OffsetRecord` store are not
part of the repository fragment under `src/` (only harness tests exercising
them are).  The broker holds an append-only log per partition;
`BrokerClient.fetch(topic, partition, offset)` returns the messages from
`offset` on together with the high-water mark, here `log.length`.  The
router walks the current assignment snapshot, skips unreachable partitions
without raising, and on success advances the committed offset to the fetched
batch's next-offset. -/

/-- One `FetchResult` entry: `(BrokerPartition, messages, nextOffset)`
(spec §3). -/
structure FetchEntry where
  bp : BrokerPartition
  messages : List String
  nextOffset : Nat
deriving DecidableEq, Repr

/-- A consumer-side snapshot: per-partition broker logs, committed
`OffsetRecord`s, and the member's current `Assignment`. -/
structure RouterState where
  logs : BrokerPartition → List String
  offsets : BrokerPartition → Nat
  assignment : List BrokerPartition

/-- Modelled from the spec: `FetchRouter.fetch()` (§4.4), missing from
`src/`.  For each partition of the assignment snapshot, an unreachable
broker (`reach bp = false`) excludes only that partition from the result;
a reachable one contributes `(bp, log.drop offset, log.length)`. -/
def routerFetch (s : RouterState) (reach : BrokerPartition → Bool) :
    List FetchEntry :=
  s.assignment.filterMap fun bp =>
    if reach bp then
      some ⟨bp, (s.logs bp).drop (s.offsets bp), (s.logs bp).length⟩
    else none

/-- Operations touching the consumer-side state: a producer appending to a
partition's log, a `FetchRouter.fetch()` call under a given reachability,
the explicit `OffsetRecord` reset, and a coordinator rebalance installing a
new assignment (spec §3, §4.3, §4.4). -/
inductive Op where
  | produce (bp : BrokerPartition) (msgs : List String)
  | fetch (reach : BrokerPartition → Bool)
  | reset (bp : BrokerPartition) (v : Nat)
  | rebalance (a : List BrokerPartition)

/-- Modelled from the spec: the state transition of each operation.  A
`fetch` advances the committed offset of every reachable assigned partition
to the fetched batch's next-offset (§4.4); `produce` appends to one log;
`reset` is the explicit offset reset (§3); `rebalance` replaces the
assignment and touches no offset. -/
def applyOp (s : RouterState) : Op → RouterState
  | Op.produce bp msgs =>
      { s with logs := fun q => if q = bp then s.logs q ++ msgs else s.logs q }
  | Op.fetch reach =>
      { s with offsets := fun q =>
          if reach q ∧ q ∈ s.assignment then (s.logs q).length else s.offsets q }
  | Op.reset bp v =>
      { s with offsets := fun q => if q = bp then v else s.offsets q }
  | Op.rebalance a => { s with assignment := a }

theorem foldl_produce_logs (parts : List BrokerPartition) (msgs : List String)
    (s : RouterState) (hnd : parts.Nodup) (bp : BrokerPartition) :
    ((parts.map fun q => Op.produce q msgs).foldl applyOp s).logs bp
      = if bp ∈ parts then s.logs bp ++ msgs else s.logs bp := by
  induction parts generalizing s with
  | nil => simp
  | cons q rest ih =>
    simp only [List.map_cons, List.foldl_cons]
    rw [ih _ (List.nodup_cons.mp hnd).2]
    by_cases hq : bp = q
    · subst hq
      have hnotin : bp ∉ rest := (List.nodup_cons.mp hnd).1
      simp [applyOp, hnotin]
    · simp [applyOp, hq, List.mem_cons]

theorem foldl_produce_offsets (parts : List BrokerPartition) (msgs : List String)
    (s : RouterState) (bp : BrokerPartition) :
    ((parts.map fun q => Op.produce q msgs).foldl applyOp s).offsets bp
      = s.offsets bp := by
  induction parts generalizing s with
  | nil => rfl
  | cons q rest ih => simp only [List.map_cons, List.foldl_cons]; rw [ih]; rfl

theorem foldl_produce_assignment (parts : List BrokerPartition)
    (msgs : List String) (s : RouterState) :
    ((parts.map fun q => Op.produce q msgs).foldl applyOp s).assignment
      = s.assignment := by
  induction parts generalizing s with
  | nil => rfl
  | cons q rest ih => simp only [List.map_cons, List.foldl_cons]; rw [ih]; rfl

/-- C3: producing the single message `"hello"` to every partition of the
topic and then fetching yields one `FetchResult` entry per owned partition,
each with message list `["hello"]` (and next-offset 1). -/
theorem fetch_after_produce_hello (allParts assignment : List BrokerPartition)
    (hsub : ∀ bp ∈ assignment, bp ∈ allParts) (hnd : allParts.Nodup) :
    routerFetch
        ((allParts.map fun bp => Op.produce bp ["hello"]).foldl applyOp
          { logs := fun _ => [], offsets := fun _ => 0, assignment := assignment })
        (fun _ => true)
      = assignment.map fun bp => FetchEntry.mk bp ["hello"] 1 := by
  have hlog : ∀ bp ∈ assignment,
      ((allParts.map fun q => Op.produce q ["hello"]).foldl applyOp
        { logs := fun _ => [], offsets := fun _ => 0,
          assignment := assignment } : RouterState).logs bp = ["hello"] := by
    intro bp hbp
    rw [foldl_produce_logs _ _ _ hnd, if_pos (hsub bp hbp)]
    rfl
  have hoff : ∀ bp,
      ((allParts.map fun q => Op.produce q ["hello"]).foldl applyOp
        { logs := fun _ => [], offsets := fun _ => 0,
          assignment := assignment } : RouterState).offsets bp = 0 :=
    fun bp => foldl_produce_offsets ..
  rw [routerFetch, foldl_produce_assignment]
  show assignment.filterMap _ = _
  have hgen : ∀ l : List BrokerPartition,
      (∀ bp ∈ l,
        ((allParts.map fun q => Op.produce q ["hello"]).foldl applyOp
          { logs := fun _ => [], offsets := fun _ => 0,
            assignment := assignment } : RouterState).logs bp = ["hello"]) →
      (l.filterMap fun bp =>
        if (fun _ => true : BrokerPartition → Bool) bp then
          some (FetchEntry.mk bp
            ((((allParts.map fun q => Op.produce q ["hello"]).foldl applyOp
              { logs := fun _ => [], offsets := fun _ => 0,
                assignment := assignment } : RouterState).logs bp).drop
              (((allParts.map fun q => Op.produce q ["hello"]).foldl applyOp
                { logs := fun _ => [], offsets := fun _ => 0,
                  assignment := assignment } : RouterState).offsets bp))
            (((allParts.map fun q => Op.produce q ["hello"]).foldl applyOp
              { logs := fun _ => [], offsets := fun _ => 0,
                assignment := assignment } : RouterState).logs bp).length)
        else none)
      = l.map fun bp => FetchEntry.mk bp ["hello"] 1 := by
    intro l
    induction l with
    | nil => intro _; rfl
    | cons q rest ih =>
      intro hl
      rw [List.filterMap_cons, List.map_cons]
      rw [ih fun bp h => hl bp (List.mem_cons_of_mem _ h)]
      simp [hl q (List.mem_cons_self ..), hoff]
  exact hgen assignment hlog

/-- C3 witness: two partitions on one broker, one owned; the fetch after
producing `"hello"` everywhere returns exactly that partition's entry. -/
theorem fetch_after_produce_hello_witness :
    (∀ bp ∈ ([⟨0, "h", 9101, 0⟩] : List BrokerPartition),
      bp ∈ ([⟨0, "h", 9101, 0⟩, ⟨0, "h", 9101, 1⟩] : List BrokerPartition)) ∧
    ([⟨0, "h", 9101, 0⟩, ⟨0, "h", 9101, 1⟩] : List BrokerPartition).Nodup ∧
    routerFetch
        ((([⟨0, "h", 9101, 0⟩, ⟨0, "h", 9101, 1⟩] : List BrokerPartition).map
            fun bp => Op.produce bp ["hello"]).foldl applyOp
          { logs := fun _ => [], offsets := fun _ => 0,
            assignment := [⟨0, "h", 9101, 0⟩] })
        (fun _ => true)
      = [FetchEntry.mk ⟨0, "h", 9101, 0⟩ ["hello"] 1] :=
  ⟨by decide, by decide,
   fetch_after_produce_hello [⟨0, "h", 9101, 0⟩, ⟨0, "h", 9101, 1⟩]
     [⟨0, "h", 9101, 0⟩] (by decide) (by decide)⟩

/-- C4: with broker `bad` unreachable, `fetch()` omits exactly that broker's
partitions from the result (returning, not raising), every other assigned
partition still contributes its entry, and the assignment is unchanged — no
partition is dropped and no rebalance is triggered by the fetch failure. -/
theorem fetch_broker_unreachable_isolated (s : RouterState) (bad : Nat) :
    (∀ e ∈ routerFetch s fun bp => decide (bp.brokerId ≠ bad),
      e.bp.brokerId ≠ bad) ∧
    (∀ bp ∈ s.assignment, bp.brokerId ≠ bad →
      FetchEntry.mk bp ((s.logs bp).drop (s.offsets bp)) (s.logs bp).length
        ∈ routerFetch s fun bp => decide (bp.brokerId ≠ bad)) ∧
    (applyOp s (Op.fetch fun bp => decide (bp.brokerId ≠ bad))).assignment
      = s.assignment := by
  refine ⟨?_, ?_, rfl⟩
  · intro e he
    rw [routerFetch] at he
    simp only [List.mem_filterMap] at he
    obtain ⟨bp, hbp, hif⟩ := he
    split at hif
    next hcond =>
      rw [← Option.some_inj.mp hif]
      simpa using hcond
    next hcond => exact Option.noConfusion hif
  · intro bp hbp hne
    rw [routerFetch]
    simp only [List.mem_filterMap]
    exact ⟨bp, hbp, by simp [hne]⟩

/-- C4 witness: with broker 0 down, the fetch leaves the two-partition
assignment untouched. -/
theorem fetch_broker_unreachable_witness :
    (applyOp
      { logs := fun _ => ["m"], offsets := fun _ => 0,
        assignment := [⟨0, "h1", 9101, 0⟩, ⟨1, "h2", 9102, 0⟩] }
      (Op.fetch fun bp => decide (bp.brokerId ≠ 0))).assignment
      = [⟨0, "h1", 9101, 0⟩, ⟨1, "h2", 9102, 0⟩] :=
  (fetch_broker_unreachable_isolated
    { logs := fun _ => ["m"], offsets := fun _ => 0,
      assignment := [⟨0, "h1", 9101, 0⟩, ⟨1, "h2", 9102, 0⟩] } 0).2.2

/-- C5: `fetch()` on a topic with zero produced messages returns a result
with zero total messages and does not error; with an empty assignment
(including when no brokers are registered), it returns an empty result
rather than failing. -/
theorem fetch_empty_results (s : RouterState) (reach : BrokerPartition → Bool) :
    ((∀ bp ∈ s.assignment, s.logs bp = []) →
      ((routerFetch s reach).map fun e => e.messages.length).sum = 0) ∧
    (s.assignment = [] → routerFetch s reach = []) := by
  constructor
  · intro hlogs
    rw [routerFetch]
    have hgen : ∀ l : List BrokerPartition, (∀ bp ∈ l, s.logs bp = []) →
        ((l.filterMap fun bp =>
          if reach bp then
            some (FetchEntry.mk bp ((s.logs bp).drop (s.offsets bp))
              (s.logs bp).length)
          else none).map fun e => e.messages.length).sum = 0 := by
      intro l
      induction l with
      | nil => intro _; rfl
      | cons q rest ih =>
        intro hl
        rw [List.filterMap_cons]
        by_cases hr : reach q
        · simp [hr, hl q (List.mem_cons_self ..),
            ih fun bp h => hl bp (List.mem_cons_of_mem _ h)]
        · simp [hr, ih fun bp h => hl bp (List.mem_cons_of_mem _ h)]
    exact hgen s.assignment hlogs
  · intro h
    rw [routerFetch, h]
    rfl

/-- C5 witness: one owned partition with an empty log gives zero total
messages; an empty assignment gives an empty result. -/
theorem fetch_empty_results_witness :
    ((routerFetch
        { logs := fun _ => [], offsets := fun _ => 0,
          assignment := [⟨0, "h", 9101, 0⟩] } fun _ => true).map
      fun e => e.messages.length).sum = 0 ∧
    routerFetch
        { logs := fun _ => ["x"], offsets := fun _ => 0, assignment := [] }
        (fun _ => true) = [] :=
  ⟨(fetch_empty_results
      { logs := fun _ => [], offsets := fun _ => 0,
        assignment := [⟨0, "h", 9101, 0⟩] } fun _ => true).1 fun _ _ => rfl,
   (fetch_empty_results
      { logs := fun _ => ["x"], offsets := fun _ => 0, assignment := [] }
      fun _ => true).2 rfl⟩

/-- The committed-offset invariant: every `OffsetRecord` is within its
partition's log. -/
def OffsetsValid (s : RouterState) : Prop :=
  ∀ bp, s.offsets bp ≤ (s.logs bp).length

theorem applyOp_invariant (s : RouterState) (op : Op) (hinv : OffsetsValid s)
    (hval : ∀ bp v, op = Op.reset bp v → v ≤ (s.logs bp).length) :
    OffsetsValid (applyOp s op) := by
  intro bp
  cases op with
  | produce q msgs =>
    simp only [applyOp]
    have h₁ := hinv bp
    by_cases h : bp = q
    · subst h
      rw [if_pos rfl, List.length_append]
      omega
    · rw [if_neg h]
      exact hinv bp
  | fetch reach =>
    simp only [applyOp]
    by_cases h : reach bp ∧ bp ∈ s.assignment
    · simp [h]
    · simp only [if_neg h]
      exact hinv bp
  | reset q v =>
    simp only [applyOp]
    by_cases h : bp = q
    · subst h
      simp only [if_pos rfl]
      exact hval bp v rfl
    · simp only [if_neg h]
      exact hinv bp
  | rebalance a => exact hinv bp

theorem applyOp_offsets_le (s : RouterState) (op : Op) (hinv : OffsetsValid s)
    (hnr : ∀ bp v, op ≠ Op.reset bp v) :
    ∀ bp, s.offsets bp ≤ (applyOp s op).offsets bp := by
  intro bp
  cases op with
  | produce q msgs => exact Nat.le_refl _
  | fetch reach =>
    simp only [applyOp]
    by_cases h : reach bp ∧ bp ∈ s.assignment
    · simp only [if_pos h]
      exact hinv bp
    · simp only [if_neg h]
      exact Nat.le_refl _
  | reset q v => exact absurd rfl (hnr q v)
  | rebalance a => exact Nat.le_refl _

/-- C8: over every sequence of operations containing no explicit reset,
starting from a state whose committed offsets lie within their logs, every
`(groupName, topic, BrokerPartition)` committed offset is monotonically
non-decreasing, and it stays exactly unchanged when the sequence also
contains no `FetchRouter` consumption acknowledgment (no `fetch`): offsets
advance only via successful fetch acknowledgment. -/
theorem offsets_monotone (s : RouterState) (ops : List Op)
    (hinv : OffsetsValid s)
    (hnr : ∀ op ∈ ops, ∀ bp v, op ≠ Op.reset bp v) :
    (∀ bp, s.offsets bp ≤ (ops.foldl applyOp s).offsets bp) ∧
    ((∀ op ∈ ops, ∀ reach, op ≠ Op.fetch reach) →
      (ops.foldl applyOp s).offsets = s.offsets) := by
  induction ops generalizing s with
  | nil => exact ⟨fun bp => Nat.le_refl _, fun _ => rfl⟩
  | cons op rest ih =>
    have hnr₀ : ∀ bp v, op ≠ Op.reset bp v := hnr op (List.mem_cons_self ..)
    have hinv' : OffsetsValid (applyOp s op) :=
      applyOp_invariant s op hinv fun bp v h => absurd h (hnr₀ bp v)
    have hrest := ih (applyOp s op) hinv'
      fun o ho bp v => hnr o (List.mem_cons_of_mem _ ho) bp v
    constructor
    · intro bp
      rw [List.foldl_cons]
      exact Nat.le_trans (applyOp_offsets_le s op hinv hnr₀ bp) (hrest.1 bp)
    · intro hnf
      have h₁ : (applyOp s op).offsets = s.offsets := by
        cases op with
        | produce q m => rfl
        | fetch r => exact absurd rfl (hnf _ (List.mem_cons_self ..) r)
        | reset q v => exact absurd rfl (hnr₀ q v)
        | rebalance a => rfl
      rw [List.foldl_cons,
        hrest.2 fun o ho r => hnf o (List.mem_cons_of_mem _ ho) r, h₁]

/-- C8 witness: from an offset of 1 within a one-message log, a produce
followed by a fetch never moves the committed offset backward. -/
theorem offsets_monotone_witness :
    OffsetsValid
      { logs := fun _ => ["m"], offsets := fun _ => 1,
        assignment := [⟨0, "h", 9101, 0⟩] } ∧
    ({ logs := fun _ => ["m"], offsets := fun _ => 1,
        assignment := [⟨0, "h", 9101, 0⟩] } : RouterState).offsets
        ⟨0, "h", 9101, 0⟩ ≤
      (([Op.produce ⟨0, "h", 9101, 0⟩ ["x"], Op.fetch fun _ => true]).foldl
          applyOp
          { logs := fun _ => ["m"], offsets := fun _ => 1,
            assignment := [⟨0, "h", 9101, 0⟩] }).offsets ⟨0, "h", 9101, 0⟩ :=
  ⟨fun _ => Nat.le_refl 1,
   (offsets_monotone
     { logs := fun _ => ["m"], offsets := fun _ => 1,
       assignment := [⟨0, "h", 9101, 0⟩] }
     [Op.produce ⟨0, "h", 9101, 0⟩ ["x"], Op.fetch fun _ => true]
     (fun _ => Nat.le_refl 1)
     (by
       intro op hop bp v
       rcases List.mem_cons.mp hop with h | h
       · subst h; simp
       · rcases List.mem_cons.mp h with h₂ | h₂
         · subst h₂; simp
         · exact absurd h₂ (List.not_mem_nil _))).1 ⟨0, "h", 9101, 0⟩⟩

end Brod
